import Mathlib

/-!
Verification of the Baichuan protocol core of `reolink-aio-ts`.

Shallow embedding of:
* `src/baichuan/util.ts` — the XOR stream cipher (`decryptBaichuan`, `encryptBaichuan`)
  and the `HEADER_MAGIC` constant;
* `src/baichuan/xmls.ts` — the `format` placeholder substitution used by
  `buildBaichuanXml`;
* `src/baichuan/tcp-protocol.ts` — the byte-stream framer
  (`handleData` / `parseData` / `setError`), the pending-request table
  (`waitForResponse`, the timeout callback) and connection-loss handling
  (`handleConnectionLost`, the socket wiring in `connect`).

Bytes are modelled as `Nat` values (< 256 where it matters), buffers as
`List Nat`, and JS strings as lists of char codes.
-/

namespace Reolink

/-! ## Cipher engine (src/baichuan/util.ts) -/

/-- `XML_KEY`: the fixed 8-entry byte key table. -/
def XML_KEY : List Nat := [0x1f, 0x2d, 0x3c, 0x4b, 0x5a, 0x69, 0x78, 0xff]

/-- `XML_KEY[(i) % XML_KEY.length]` — the keystream byte used at absolute index `i`. -/
def xmlKeyAt (i : Nat) : Nat := XML_KEY.getD (i % XML_KEY.length) 0

/-- Loop body of `decryptBaichuan`: `char = buf[idx] ^ XML_KEY[(offset+idx) % 8] ^ offset`,
with `offset` already reduced mod 256 and `idx` the running index. -/
def decryptGo (offset : Nat) : Nat → List Nat → List Nat
  | _, [] => []
  | idx, b :: rest => (b ^^^ xmlKeyAt (offset + idx) ^^^ offset) :: decryptGo offset (idx + 1) rest

/-- `decryptBaichuan(buf, offset)`: reduces `offset % 256`, then XORs each byte with the
keystream and the offset. Total — the source contains no throwing operation. -/
def decryptBaichuan (buf : List Nat) (offset : Nat) : List Nat :=
  decryptGo (offset % 256) 0 buf

/-- Loop body of `encryptBaichuan`: `byte = buf.charCodeAt(idx) ^ key ^ offset`, stored
into a `Buffer` byte (hence the truncation `% 256`). -/
def encryptGo (offset : Nat) : Nat → List Nat → List Nat
  | _, [] => []
  | idx, c :: rest => ((c ^^^ xmlKeyAt (offset + idx) ^^^ offset) % 256) :: encryptGo offset (idx + 1) rest

/-- `encryptBaichuan(buf, offset)`: throws `InvalidParameterError` when `offset > 255`,
otherwise returns the XOR-encrypted buffer. -/
def encryptBaichuan (buf : List Nat) (offset : Nat) : Except String (List Nat) :=
  if offset > 255 then
    .error "InvalidParameterError: Baichuan encryption offset can not be larger than 255"
  else
    .ok (encryptGo offset 0 buf)

theorem xmlKeyAt_lt (i : Nat) : xmlKeyAt i < 256 := by
  unfold xmlKeyAt XML_KEY
  have h : i % 8 < 8 := Nat.mod_lt _ (by norm_num)
  interval_cases h' : i % 8 <;> simp [h']

theorem decryptGo_length (offset idx : Nat) (l : List Nat) :
    (decryptGo offset idx l).length = l.length := by
  induction l generalizing idx with
  | nil => rfl
  | cons b rest ih => simp [decryptGo, ih]

theorem encryptGo_length (offset idx : Nat) (l : List Nat) :
    (encryptGo offset idx l).length = l.length := by
  induction l generalizing idx with
  | nil => rfl
  | cons b rest ih => simp [encryptGo, ih]

theorem decryptGo_encryptGo (offset idx : Nat) (l : List Nat)
    (hoff : offset < 256) (hl : ∀ b ∈ l, b < 256) :
    decryptGo offset idx (encryptGo offset idx l) = l := by
  induction l generalizing idx with
  | nil => rfl
  | cons b rest ih =>
    have hb : b < 256 := hl b (List.mem_cons_self b rest)
    have hkey : xmlKeyAt (offset + idx) < 256 := xmlKeyAt_lt _
    have hx : b ^^^ xmlKeyAt (offset + idx) ^^^ offset < 256 := by
      have h1 : b ^^^ xmlKeyAt (offset + idx) < 2 ^ 8 :=
        Nat.xor_lt_two_pow (n := 8) hb hkey
      exact Nat.xor_lt_two_pow (n := 8) h1 hoff
    simp only [encryptGo, decryptGo, Nat.mod_eq_of_lt hx, List.cons.injEq]
    constructor
    · rw [Nat.xor_assoc b, Nat.xor_assoc, Nat.xor_cancel_right]
    · exact ih (idx + 1) (fun b hb' => hl b (List.mem_cons_of_mem _ hb'))

/-- C5: for every identifier `k` in `[0,255]` and every byte sequence (including `[]`),
`decryptBaichuan (encryptBaichuan body k) k = body` — the XOR formula
`cipher[i] = byte[i] XOR XML_KEY[(k+i) mod 8] XOR k` is self-inverse. -/
theorem cipher_round_trip (body : List Nat) (k : Nat)
    (hk : k ≤ 255) (hbody : ∀ b ∈ body, b < 256) :
    (encryptBaichuan body k).map (fun e => decryptBaichuan e k) = .ok body := by
  have hk' : ¬ k > 255 := not_lt.mpr hk
  simp only [encryptBaichuan, hk', if_false, Except.map]
  have hmod : k % 256 = k := Nat.mod_eq_of_lt (Nat.lt_succ_of_le hk)
  simp only [decryptBaichuan, hmod]
  rw [decryptGo_encryptGo k 0 body (Nat.lt_succ_of_le hk) hbody]

theorem cipher_round_trip_witness :
    (3 : Nat) ≤ 255 ∧ (∀ b ∈ [0xf0, 0xde, 0xbc, 0x0a], b < 256) ∧
    (encryptBaichuan [0xf0, 0xde, 0xbc, 0x0a] 3).map (fun e => decryptBaichuan e 3) =
      .ok [0xf0, 0xde, 0xbc, 0x0a] :=
  ⟨by decide, by decide, cipher_round_trip [0xf0, 0xde, 0xbc, 0x0a] 3 (by decide) (by decide)⟩

/-- C6: `encryptBaichuan` with identifier `> 255` always throws `InvalidParameterError`,
for any input; with identifier in `[0,255]` it always succeeds for any input, and the
output buffer has exactly the input's length. -/
theorem encrypt_offset_bound (buf : List Nat) (k : Nat) :
    (k > 255 → ∃ e, encryptBaichuan buf k = .error e) ∧
    (k ≤ 255 → encryptBaichuan buf k = .ok (encryptGo k 0 buf) ∧
      (encryptGo k 0 buf).length = buf.length) := by
  constructor
  · intro h
    exact ⟨"InvalidParameterError: Baichuan encryption offset can not be larger than 255",
      by simp [encryptBaichuan, h]⟩
  · intro h
    exact ⟨by simp [encryptBaichuan, not_lt.mpr h], encryptGo_length k 0 buf⟩

theorem encrypt_offset_bound_witness :
    ((256 : Nat) > 255 → ∃ e, encryptBaichuan [1, 2, 3] 256 = .error e) ∧
    ((255 : Nat) ≤ 255 → encryptBaichuan [1, 2, 3] 255 = .ok (encryptGo 255 0 [1, 2, 3]) ∧
      (encryptGo 255 0 [1, 2, 3]).length = [1, 2, 3].length) :=
  ⟨(encrypt_offset_bound [1, 2, 3] 256).1, (encrypt_offset_bound [1, 2, 3] 255).2⟩

/-- C7: `decryptBaichuan` is total (a plain function — the source has no throwing
operation): for every buffer and every identifier, including identifiers ≥ 256, it
reduces the identifier modulo 256 and returns a result of the input's length. -/
theorem decrypt_total (buf : List Nat) (k : Nat) :
    decryptBaichuan buf k = decryptBaichuan buf (k % 256) ∧
    (decryptBaichuan buf k).length = buf.length := by
  constructor
  · simp [decryptBaichuan, Nat.mod_mod_of_dvd]
  · exact decryptGo_length _ 0 buf

/-! ## Command encoder (src/baichuan/xmls.ts)

`format` replaces every regex match of `\x7b([A-Za-z0-9_]+)\x7d` in the template by the
parameter value, or by the empty string when the key is absent or its value is
`undefined`/`null`.  The regex scan is deterministic: after a brace, the engine takes the
maximal run of word characters and requires a closing brace; since word characters are
not braces, no backtracking can produce a different match.  Parameter maps are modelled
as association lists `List (String × Option String)` — `none` models an
`undefined`/`null` value, a missing key models an absent key, and values are already
stringified (`String(value)`). -/

/-- A character matched by `[A-Za-z0-9_]` (ASCII alphanumeric or underscore). -/
def isWordChar (c : Char) : Bool := c.isAlphanum || c = '_'

/-- Longest `isWordChar` run at the head of the list, and the remainder. -/
def spanWord : List Char → List Char × List Char
  | [] => ([], [])
  | c :: rest =>
    if isWordChar c then
      let r := spanWord rest
      (c :: r.1, r.2)
    else ([], c :: rest)

theorem spanWord_suffix_length (l : List Char) : (spanWord l).2.length ≤ l.length := by
  induction l with
  | nil => simp [spanWord]
  | cons c rest ih =>
    by_cases h : isWordChar c <;> simp [spanWord, h]
    exact Nat.le_succ_of_le ih

theorem spanWord_append_of_word (w : List Char) (d : Char) (r : List Char)
    (hw : ∀ c ∈ w, isWordChar c = true) (hd : isWordChar d = false) :
    spanWord (w ++ d :: r) = (w, d :: r) := by
  induction w with
  | nil => simp [spanWord, hd]
  | cons c w' ih =>
    have hc : isWordChar c = true := hw c (List.mem_cons_self c w')
    simp only [List.cons_append, spanWord, hc, if_true, List.append_eq]
    rw [ih (fun x hx => hw x (List.mem_cons_of_mem _ hx))]

/-- Value rendered for a matched placeholder key: the looked-up value, or `""` when the
key is absent or its value is `undefined`/`null` (the `value === undefined || value ===
null` check in `format`). -/
def renderParam (params : List (String × Option String)) (key : List Char) : List Char :=
  match (params.find? (fun e => e.1 = String.mk key)).map Prod.snd with
  | some (some v) => v.data
  | some none => []
  | none => []

/-- `format(template, params)` of src/baichuan/xmls.ts: the result of
`template.replace(placeholderRegex, ...)` — scan left to right; at a brace followed by a
nonempty word-character run and a closing brace, emit the rendered parameter and continue
after the match; otherwise copy the character. -/
def format (params : List (String × Option String)) : List Char → List Char
  | [] => []
  | c :: rest =>
    if c = '{' ∧ (spanWord rest).1 ≠ [] ∧ (spanWord rest).2.head? = some '}' then
      renderParam params (spanWord rest).1 ++ format params (spanWord rest).2.tail
    else c :: format params rest
termination_by l => l.length
decreasing_by
  all_goals simp_wf
  all_goals
    have h1 := spanWord_suffix_length rest
    have h2 := List.length_tail ((spanWord rest).2)
    omega

/-- `buildBaichuanXml(template, params)` — delegates to `format`. -/
def buildBaichuanXml (template : List Char) (params : List (String × Option String)) :
    List Char :=
  format params template

/-- C10: rendering a template substitutes each placeholder whose key is a nonempty run of
word characters with the map's rendered value, where an absent key or an
`undefined`/`null` value renders as the empty string (`renderParam`); `format` (hence
`buildBaichuanXml`) is a total function, so rendering never throws for any template and
any map, including the empty map. -/
theorem format_placeholder (params : List (String × Option String))
    (key rest : List Char) (hne : key ≠ [])
    (hw : ∀ c ∈ key, isWordChar c = true) :
    buildBaichuanXml ('{' :: key ++ '}' :: rest) params =
      renderParam params key ++ format params rest := by
  have hbrace : isWordChar '}' = false := by decide
  have hs : spanWord (key ++ '}' :: rest) = (key, '}' :: rest) :=
    spanWord_append_of_word key '}' rest hw hbrace
  unfold buildBaichuanXml
  rw [format.eq_def]
  simp only [List.cons_append] at *
  simp [hs, hne]

theorem format_placeholder_witness :
    ['u'] ≠ ([] : List Char) ∧
    buildBaichuanXml ('{' :: ['u'] ++ '}' :: ['!']) [] =
      renderParam [] ['u'] ++ format [] ['!'] :=
  ⟨by decide, format_placeholder [] ['u'] ['!'] (by decide) (by decide)⟩

/-! ## Byte-stream framer (src/baichuan/tcp-protocol.ts)

State and observable behaviour of `BaichuanTcpClientProtocol.handleData` /
`parseData` / `setError`.  The pending table `receiveFutures : Map<cmdId,
Map<messId, future>>` is flattened to a list of `(cmdId, messId)` keys — the nested
maps never hold an empty inner map, and a `Map` holds at most one entry per key.
`parseData` and `setError` read the table but never modify it (resolving or
rejecting a future does not delete its entry), so message parsing is modelled as a
function of an immutable environment producing a list of observable events. -/

/-- A `(cmdId, messId)` pending-request key. -/
abbrev BKey := Nat × Nat

/-- `HEADER_MAGIC = "f0debc0a"` as bytes. -/
def MAGIC : List Nat := [0xf0, 0xde, 0xbc, 0x0a]

/-- `buf.readUInt32LE(off)` — in `parseData` every call site is guarded so that
`off + 4 ≤ buf.length`. -/
def readU32 (l : List Nat) (off : Nat) : Nat :=
  l.getD off 0 + 256 * l.getD (off + 1) 0 + 65536 * l.getD (off + 2) 0 +
    16777216 * l.getD (off + 3) 0

/-- `buf.readUInt16LE(off)`. -/
def readU16 (l : List Nat) (off : Nat) : Nat :=
  l.getD off 0 + 256 * l.getD (off + 1) 0

/-- Which exception `setError` raises (`excClass` and its message). -/
inductive ErrKind where
  /-- `UnexpectedDataError`, "with invalid magic header <got>". -/
  | invalidMagic (got : List Nat)
  /-- `InvalidContentTypeError`, non-zero payload offset. -/
  | nonzeroPayloadOffset
  /-- `InvalidContentTypeError`, legacy message class `1465`. -/
  | legacyClass
  /-- `InvalidContentTypeError`, unknown message class bytes. -/
  | unknownClass (b18 b19 : Nat)
  deriving DecidableEq, Repr

/-- Observable events of the protocol handler: each constructor is one call the
source makes on a future, the push callback, or the close callback. -/
inductive FEvent where
  /-- `receiveFuture.resolve([dataChunk, lenHeader])` for key `(cmdId, messId)`. -/
  | resolved (cmdId messId : Nat) (chunk : List Nat) (lenHeader : Nat)
  /-- `receiveFuture.reject(ApiError ...)` on a bad status code; `auth` records the
  dedicated 401-unauthorized message branch (`rspCode = status` in both). -/
  | rejectedStatus (cmdId messId status : Nat) (auth : Bool)
  /-- `pushCallback(cmdId, dataChunk, lenHeader)`. -/
  | pushed (cmdId : Nat) (chunk : List Nat) (lenHeader : Nat)
  /-- `setError`: rejects exactly the listed pending keys with the given error
  (an empty list is the log-and-drop branch). -/
  | errored (kind : ErrKind) (rejectedKeys : List BKey)
  /-- the `waitForResponse` timeout callback: `reject(ReolinkTimeoutError ...)`. -/
  | timeoutRejected (cmdId messId : Nat)
  /-- `handleConnectionLost`: `future.reject(error)`; `sockErr` is true when the
  rejection reuses the socket error, false for the built `ReolinkConnectionError`. -/
  | connRejected (cmdId messId : Nat) (sockErr : Bool)
  /-- `closeCallback()`. -/
  | closeCb
  deriving DecidableEq, Repr

/-- Environment `parseData` reads: the pending keys and whether a `pushCallback`
is registered. -/
structure FramerEnv where
  futures : List BKey
  hasPush : Bool
  deriving DecidableEq, Repr

/-- The keys `setError(errMess, excClass, cmdId, messId)` rejects: all futures when
no `cmdId` is given; all futures of `cmdId` when no `messId` is given or the exact
key is absent; the exact key when present; none (log-and-drop) when the table is
empty or has no future for `cmdId`. -/
def setErrorKeys (futures : List BKey) (cmdId? messId? : Option Nat) : List BKey :=
  if futures ≠ [] ∧ (cmdId?.isNone ∨ futures.any (fun k => k.1 = cmdId?.getD 0)) then
    match cmdId? with
    | none => futures
    | some c =>
      match messId? with
      | none => futures.filter (fun k => k.1 = c)
      | some m =>
        if (c, m) ∈ futures then [(c, m)] else futures.filter (fun k => k.1 = c)
  else []

/-- Result of parsing the message at the head of the buffer (the non-recursive part
of `parseData`). -/
inductive ParseOutcome where
  /-- an early `return` that keeps `this.data` (header/body incomplete). -/
  | wait
  /-- an early `return` through `setError`, which clears `this.data`. -/
  | halt (evs : List FEvent)
  /-- one chunk consumed: events of the `try` body, and the remaining `this.data`. -/
  | msg (evs : List FEvent) (rest : List Nat)
  deriving DecidableEq, Repr

/-- Events of the `try` body of `parseData` for an extracted `chunk` (the status-code
check for 24-byte headers, then pending-table lookup, then push/log). -/
def bodyEvents (env : FramerEnv) (recCmdId recMessId lenHeader : Nat)
    (chunk : List Nat) : List FEvent :=
  if lenHeader = 24 ∧ readU16 chunk 16 ≠ 200 ∧ readU16 chunk 16 ≠ 300 then
    if (recCmdId, recMessId) ∈ env.futures then
      [.rejectedStatus recCmdId recMessId (readU16 chunk 16) (readU16 chunk 16 = 401)]
    else []
  else if (recCmdId, recMessId) ∈ env.futures then
    [.resolved recCmdId recMessId chunk lenHeader]
  else if env.hasPush then
    [.pushed recCmdId chunk lenHeader]
  else []

/-- The body-length check and chunk extraction of `parseData` (lines after the
message-class dispatch). -/
def parseBody (env : FramerEnv) (data : List Nat)
    (recCmdId recLenBody recMessId lenHeader : Nat) : ParseOutcome :=
  let lenBody := data.length - lenHeader
  if lenBody < recLenBody then .wait
  else
    let lenChunk := recLenBody + lenHeader
    let chunk := data.take lenChunk
    let rest := if lenBody > recLenBody then data.drop lenChunk else []
    .msg (bodyEvents env recCmdId recMessId lenHeader chunk) rest

/-- One step of `parseData`: length guard, header-field reads, message-class
dispatch (`1466` → 20-byte header, `1464`/`0000` → 24-byte header with
payload-offset check, `1465` → legacy error, otherwise unknown-class error),
then `parseBody`. -/
def parseOne (env : FramerEnv) (data : List Nat) : ParseOutcome :=
  if data.length < 20 then .wait
  else
    let recCmdId := readU32 data 4
    let recLenBody := readU32 data 8
    let recMessId := readU32 data 12
    let b18 := data.getD 18 0
    let b19 := data.getD 19 0
    if b18 = 0x14 ∧ b19 = 0x66 then
      parseBody env data recCmdId recLenBody recMessId 20
    else if (b18 = 0x14 ∧ b19 = 0x64) ∨ (b18 = 0 ∧ b19 = 0) then
      if data.length < 24 then .wait
      else if readU32 data 20 ≠ 0 then
        .halt [.errored .nonzeroPayloadOffset
          (setErrorKeys env.futures (some recCmdId) (some recMessId))]
      else parseBody env data recCmdId recLenBody recMessId 24
    else if b18 = 0x14 ∧ b19 = 0x65 then
      .halt [.errored .legacyClass
        (setErrorKeys env.futures (some recCmdId) (some recMessId))]
    else
      .halt [.errored (.unknownClass b18 b19)
        (setErrorKeys env.futures (some recCmdId) (some recMessId))]

/-- Fuelled `parseData` recursion: the recursive call in the `finally` block (parse
the next message when the remaining buffer begins with the magic constant; keep a
short strict prefix of it; otherwise drop the remainder).  Each recursive call
consumes a chunk of at least 20 bytes, so `fuel = data.length` always suffices. -/
def parseDataF (env : FramerEnv) : Nat → List Nat → List FEvent × List Nat
  | 0, data => ([], data)
  | fuel + 1, data =>
    match parseOne env data with
    | .wait => ([], data)
    | .halt evs => (evs, [])
    | .msg evs rest =>
      if rest = [] then (evs, [])
      else if rest.take 4 = MAGIC then
        let r := parseDataF env fuel rest
        (evs ++ r.1, r.2)
      else if rest.length < 4 ∧ rest.isPrefixOf MAGIC then (evs, rest)
      else (evs, [])

/-- `parseData()`: events emitted and the final `this.data`. -/
def parseData (env : FramerEnv) (data : List Nat) : List FEvent × List Nat :=
  parseDataF env data.length data

/-- `handleData(data)`: a chunk beginning with the magic constant replaces the
buffer; otherwise it is appended when the buffer is non-empty; an empty buffer plus
a strict short prefix of the magic constant waits without parsing; anything else is
a `setError` with `UnexpectedDataError` (no `cmdId`, so all pending futures are
rejected).  The `try`/`catch` around `parseData` is not modelled: with the length
guards of `parseOne`, no modelled operation throws. -/
def handleData (env : FramerEnv) (st : List Nat) (chunk : List Nat) :
    List FEvent × List Nat :=
  if chunk.take 4 = MAGIC then parseData env chunk
  else if st ≠ [] then parseData env (st ++ chunk)
  else if chunk.length < 4 ∧ chunk.isPrefixOf MAGIC then ([], chunk)
  else ([.errored (.invalidMagic (chunk.take 4)) (setErrorKeys env.futures none none)], [])

/-- Feed a list of chunks starting from buffer `st`, accumulating events. -/
def feedFrom (env : FramerEnv) (st : List Nat) (chunks : List (List Nat)) :
    List FEvent × List Nat :=
  chunks.foldl
    (fun acc c =>
      let r := handleData env acc.2 c
      (acc.1 ++ r.1, r.2))
    ([], st)

/-- Feed a list of chunks to a fresh connection (empty buffer). -/
def feedAll (env : FramerEnv) (chunks : List (List Nat)) : List FEvent × List Nat :=
  feedFrom env [] chunks

/-! ### Well-formed messages and stream decomposition -/

/-- A well-formed wire message as accepted by `parseData`: begins with the magic
constant, carries a recognized modern message class at bytes 18–19, its total length
is exactly header length plus the declared body length, and (24-byte headers) a zero
payload offset. -/
def GoodMsg (m : List Nat) : Prop :=
  m.take 4 = MAGIC ∧
  ((m.getD 18 0 = 0x14 ∧ m.getD 19 0 = 0x66 ∧ m.length = 20 + readU32 m 8) ∨
    (((m.getD 18 0 = 0x14 ∧ m.getD 19 0 = 0x64) ∨ (m.getD 18 0 = 0 ∧ m.getD 19 0 = 0)) ∧
      m.length = 24 + readU32 m 8 ∧ readU32 m 20 = 0))

instance (m : List Nat) : Decidable (GoodMsg m) := by
  unfold GoodMsg
  exact inferInstance

/-- Header length selected by the message class of a well-formed message. -/
def headerLenOf (m : List Nat) : Nat :=
  if m.getD 18 0 = 0x14 ∧ m.getD 19 0 = 0x66 then 20 else 24

/-- The events `parseData` emits for one complete well-formed message. -/
def msgEvents (env : FramerEnv) (m : List Nat) : List FEvent :=
  bodyEvents env (readU32 m 4) (readU32 m 12) (headerLenOf m) m

/-- Split a byte prefix `q` of `ms.join` into the fully covered messages and the
remaining partial prefix of the next message. -/
def chop : List (List Nat) → List Nat → List (List Nat) × List Nat
  | [], q => ([], q)
  | m :: ms, q => if q.length < m.length then (m :: ms, q) else chop ms (q.drop m.length)

/-- `p` is the empty buffer or a proper nonempty prefix of the next expected
message. -/
def PartialOK (ms : List (List Nat)) (p : List Nat) : Prop :=
  p = [] ∨ (p ≠ [] ∧ ∃ m ms', ms = m :: ms' ∧ p.length < m.length ∧ p <+: m)

/-- The split condition forced by `handleData`'s buffer-replacement rule: while the
buffer holds a partial message, the next chunk must not begin with the 4-byte magic
constant (otherwise the partial message is discarded).  Chunks starting at message
boundaries (empty buffer) are unrestricted; chunks shorter than 4 bytes never
trigger replacement. -/
def splitOK : List (List Nat) → List Nat → List (List Nat) → Bool
  | _, _, [] => true
  | ms, p, c :: cs =>
    decide (p = [] ∨ c.take 4 ≠ MAGIC) &&
      splitOK (chop ms (p ++ c)).1 (chop ms (p ++ c)).2 cs

theorem GoodMsg.length_ge (m : List Nat) (h : GoodMsg m) : 20 ≤ m.length := by
  rcases h.2 with ⟨_, _, hlen⟩ | ⟨_, hlen, _⟩ <;> omega

theorem GoodMsg.take4 (m : List Nat) (h : GoodMsg m) : m.take 4 = MAGIC := h.1

theorem readU32_append (l c : List Nat) (off : Nat) (h : off + 4 ≤ l.length) :
    readU32 (l ++ c) off = readU32 l off := by
  unfold readU32
  rw [List.getD_append _ _ _ _ (by omega), List.getD_append _ _ _ _ (by omega),
    List.getD_append _ _ _ _ (by omega), List.getD_append _ _ _ _ (by omega)]

theorem readU16_append (l c : List Nat) (off : Nat) (h : off + 2 ≤ l.length) :
    readU16 (l ++ c) off = readU16 l off := by
  unfold readU16
  rw [List.getD_append _ _ _ _ (by omega), List.getD_append _ _ _ _ (by omega)]

theorem readU32_of_pref (p m : List Nat) (off : Nat) (hp : p <+: m)
    (h : off + 4 ≤ p.length) : readU32 p off = readU32 m off := by
  obtain ⟨c, rfl⟩ := hp
  exact (readU32_append p c off h).symm

theorem getD_of_pref (p m : List Nat) (i : Nat) (hp : p <+: m)
    (h : i < p.length) : p.getD i 0 = m.getD i 0 := by
  obtain ⟨c, rfl⟩ := hp
  exact (List.getD_append _ _ _ _ h).symm

/-- `parseBody` on a buffer consisting of one exactly-sized message plus a remainder
extracts the message as the chunk and leaves the remainder. -/
theorem parseBody_complete (env : FramerEnv) (m c : List Nat) (cmd lb mess lenH : Nat)
    (hL : m.length = lenH + lb) :
    parseBody env (m ++ c) cmd lb mess lenH = .msg (bodyEvents env cmd mess lenH m) c := by
  have hlen' : (m ++ c).length = m.length + c.length := List.length_append m c
  simp only [parseBody]
  rw [if_neg (by omega)]
  have htake : (m ++ c).take (lb + lenH) = m := by
    rw [show lb + lenH = m.length by omega]
    exact List.take_left m c
  have hdrop : (m ++ c).drop (lb + lenH) = c := by
    rw [show lb + lenH = m.length by omega]
    exact List.drop_left m c
  rw [htake, hdrop]
  by_cases hc : c = []
  · subst hc
    rw [if_neg (by simp [hlen', hL])]
  · rw [if_pos (by have := List.length_pos.mpr hc; omega)]

/-- A complete well-formed message at the head of the buffer parses to exactly its
own chunk, leaving the appended remainder. -/
theorem parseOne_complete (env : FramerEnv) (m c : List Nat) (hm : GoodMsg m) :
    parseOne env (m ++ c) = .msg (msgEvents env m) c := by
  have hlen := hm.length_ge
  have hlen' : (m ++ c).length = m.length + c.length := List.length_append m c
  have h18 : (m ++ c).getD 18 0 = m.getD 18 0 := List.getD_append _ _ _ _ (by omega)
  have h19 : (m ++ c).getD 19 0 = m.getD 19 0 := List.getD_append _ _ _ _ (by omega)
  have h4 : readU32 (m ++ c) 4 = readU32 m 4 := readU32_append _ _ _ (by omega)
  have h8 : readU32 (m ++ c) 8 = readU32 m 8 := readU32_append _ _ _ (by omega)
  have h12 : readU32 (m ++ c) 12 = readU32 m 12 := readU32_append _ _ _ (by omega)
  simp only [parseOne]
  rw [if_neg (by omega)]
  simp only [h18, h19, h4, h8, h12]
  rcases hm.2 with ⟨hb18, hb19, hL⟩ | ⟨hclass, hL, hoff⟩
  · have hhl : headerLenOf m = 20 := by
      unfold headerLenOf
      rw [if_pos ⟨hb18, hb19⟩]
    rw [if_pos ⟨hb18, hb19⟩, parseBody_complete env m c _ _ _ 20 (by omega)]
    unfold msgEvents
    rw [hhl]
  · have hne66 : ¬(m.getD 18 0 = 0x14 ∧ m.getD 19 0 = 0x66) := by
      rcases hclass with ⟨_, h64⟩ | ⟨h0, _⟩
      · exact fun h => by omega
      · exact fun h => by omega
    have hhl : headerLenOf m = 24 := by
      unfold headerLenOf
      rw [if_neg hne66]
    have h20 : readU32 (m ++ c) 20 = readU32 m 20 := readU32_append _ _ _ (by omega)
    rw [if_neg hne66, if_pos hclass, if_neg (by omega), h20, hoff, if_neg (by omega),
      parseBody_complete env m c _ _ _ 24 (by omega)]
    unfold msgEvents
    rw [hhl]

/-- A proper nonempty prefix of a well-formed message never completes: `parseOne`
waits for more data on it. -/
theorem parseOne_prefix_wait (env : FramerEnv) (m p : List Nat) (hm : GoodMsg m)
    (hp : p <+: m) (hlt : p.length < m.length) : parseOne env p = .wait := by
  by_cases hshort : p.length < 20
  · simp only [parseOne]
    rw [if_pos hshort]
  · push_neg at hshort
    have h18 : p.getD 18 0 = m.getD 18 0 := getD_of_pref p m 18 hp (by omega)
    have h19 : p.getD 19 0 = m.getD 19 0 := getD_of_pref p m 19 hp (by omega)
    have h8 : readU32 p 8 = readU32 m 8 := readU32_of_pref p m 8 hp (by omega)
    simp only [parseOne]
    rw [if_neg (by omega)]
    simp only [h18, h19, h8]
    rcases hm.2 with ⟨hb18, hb19, hL⟩ | ⟨hclass, hL, hoff⟩
    · rw [if_pos ⟨hb18, hb19⟩]
      simp only [parseBody]
      rw [if_pos (by omega)]
    · have hne66 : ¬(m.getD 18 0 = 0x14 ∧ m.getD 19 0 = 0x66) := by
        rcases hclass with ⟨_, h64⟩ | ⟨h0, _⟩
        · exact fun h => by omega
        · exact fun h => by omega
      rw [if_neg hne66, if_pos hclass]
      by_cases h24 : p.length < 24
      · rw [if_pos h24]
      · push_neg at h24
        have h20 : readU32 p 20 = readU32 m 20 := readU32_of_pref p m 20 hp (by omega)
        rw [if_neg (by omega), h20, hoff, if_neg (by omega)]
        simp only [parseBody]
        rw [if_pos (by omega)]

/-- The remainder a consumed message leaves is strictly shorter than the buffer. -/
theorem parseOne_msg_shrink (env : FramerEnv) (d : List Nat) (evs : List FEvent)
    (rest : List Nat) (h : parseOne env d = .msg evs rest) : rest.length < d.length := by
  by_cases hshort : d.length < 20
  · simp only [parseOne] at h
    rw [if_pos hshort] at h
    exact absurd h (by simp)
  · push_neg at hshort
    have hbody : ∀ cmd lb mess lenH, 0 < lenH →
        parseBody env d cmd lb mess lenH = .msg evs rest → rest.length < d.length := by
      intro cmd lb mess lenH hpos hb
      simp only [parseBody] at hb
      by_cases hw : d.length - lenH < lb
      · rw [if_pos hw] at hb
        exact absurd hb (by simp)
      · rw [if_neg hw] at hb
        have := (ParseOutcome.msg.injEq _ _ _ _).mp hb
        by_cases hgt : d.length - lenH > lb
        · rw [if_pos hgt] at this
          rw [← this.2]
          simp only [List.length_drop]
          omega
        · rw [if_neg hgt] at this
          rw [← this.2]
          simp only [List.length_nil]
          omega
    simp only [parseOne] at h
    rw [if_neg (by omega)] at h
    by_cases h66 : d.getD 18 0 = 0x14 ∧ d.getD 19 0 = 0x66
    · rw [if_pos h66] at h
      exact hbody _ _ _ _ (by omega) h
    · rw [if_neg h66] at h
      by_cases hext : (d.getD 18 0 = 0x14 ∧ d.getD 19 0 = 0x64) ∨
          (d.getD 18 0 = 0 ∧ d.getD 19 0 = 0)
      · rw [if_pos hext] at h
        by_cases h24 : d.length < 24
        · rw [if_pos h24] at h
          exact absurd h (by simp)
        · rw [if_neg h24] at h
          by_cases hoff : readU32 d 20 ≠ 0
          · rw [if_pos hoff] at h
            exact absurd h (by simp)
          · rw [if_neg hoff] at h
            exact hbody _ _ _ _ (by omega) h
      · rw [if_neg hext] at h
        by_cases h65 : d.getD 18 0 = 0x14 ∧ d.getD 19 0 = 0x65
        · rw [if_pos h65] at h
          exact absurd h (by simp)
        · rw [if_neg h65] at h
          exact absurd h (by simp)

/-- Enough fuel is as good as exact fuel. -/
theorem parseDataF_mono (env : FramerEnv) :
    ∀ fuel d, d.length ≤ fuel → parseDataF env fuel d = parseData env d := by
  intro fuel
  induction fuel using Nat.strong_induction_on with
  | _ fuel ih =>
    intro d hle
    match fuel, hle with
    | 0, hle =>
      have : d = [] := List.length_eq_zero.mp (Nat.le_zero.mp hle)
      subst this
      rfl
    | fuel + 1, hle =>
      unfold parseData
      match hd : d.length with
      | 0 =>
        have : d = [] := List.length_eq_zero.mp hd
        subst this
        simp [parseDataF, parseOne]
      | n + 1 =>
        simp only [parseDataF]
        match hp : parseOne env d with
        | .wait => rfl
        | .halt evs => rfl
        | .msg evs rest =>
          have hr : rest.length < d.length := parseOne_msg_shrink env d evs rest hp
          dsimp only
          by_cases h0 : rest = []
          · simp [h0]
          · rw [if_neg h0, if_neg h0]
            by_cases hmag : rest.take 4 = MAGIC
            · rw [if_pos hmag, if_pos hmag]
              have e1 : parseDataF env fuel rest = parseData env rest :=
                ih fuel (Nat.lt_succ_self _) rest (by omega)
              have e2 : parseDataF env n rest = parseData env rest :=
                ih n (by omega) rest (by omega)
              rw [e1, e2]
            · rw [if_neg hmag, if_neg hmag]

/-- The one-step unfolding of `parseData`: parse the head message, then (in the
`finally` block) recurse on a magic-headed remainder, keep a short magic prefix, or
drop an invalid remainder. -/
theorem parseData_eq (env : FramerEnv) (d : List Nat) :
    parseData env d =
      match parseOne env d with
      | .wait => ([], d)
      | .halt evs => (evs, [])
      | .msg evs rest =>
        if rest = [] then (evs, [])
        else if rest.take 4 = MAGIC then
          (evs ++ (parseData env rest).1, (parseData env rest).2)
        else if rest.length < 4 ∧ rest.isPrefixOf MAGIC then (evs, rest)
        else (evs, []) := by
  unfold parseData
  match hd : d.length with
  | 0 =>
    have : d = [] := List.length_eq_zero.mp hd
    subst this
    simp [parseDataF, parseOne]
  | n + 1 =>
    simp only [parseDataF]
    match hp : parseOne env d with
    | .wait => rfl
    | .halt evs => rfl
    | .msg evs rest =>
      have hr : rest.length < d.length := parseOne_msg_shrink env d evs rest hp
      dsimp only
      by_cases h0 : rest = []
      · simp [h0]
      · rw [if_neg h0, if_neg h0]
        by_cases hmag : rest.take 4 = MAGIC
        · rw [if_pos hmag, if_pos hmag]
          rw [parseDataF_mono env n rest (by omega)]
          rfl
        · rw [if_neg hmag, if_neg hmag]

/-- A buffer that is empty or a proper nonempty prefix of some well-formed message. -/
def PartialMsg (p : List Nat) : Prop :=
  p = [] ∨ (p ≠ [] ∧ ∃ m, GoodMsg m ∧ p.length < m.length ∧ p <+: m)

theorem take4_of_pref (p m : List Nat) (hp : p <+: m) (h4 : 4 ≤ p.length) :
    p.take 4 = m.take 4 := by
  rw [List.prefix_iff_eq_take.mp hp, List.take_take]
  simp [Nat.min_eq_left h4]

theorem prefix_magic_of_short (p m : List Nat) (hp : p <+: m) (hm : m.take 4 = MAGIC)
    (h4 : p.length ≤ 4) : p <+: MAGIC := by
  have hptake : p = (m.take 4).take p.length := by
    rw [List.take_take, Nat.min_eq_left h4, ← List.prefix_iff_eq_take.mp hp]
  rw [hptake, hm]
  exact List.take_prefix _ _

theorem short_ne_magic (p : List Nat) (h4 : p.length < 4) : p.take 4 ≠ MAGIC := by
  intro h
  have : (p.take 4).length = p.length := by simp [List.length_take]; omega
  rw [h] at this
  simp [MAGIC] at this
  omega

/-- `parseData` on a buffer made of complete well-formed messages followed by a
partial one emits the events of each message in order and keeps the partial tail. -/
theorem parseData_msgs (env : FramerEnv) :
    ∀ (ms : List (List Nat)) (p : List Nat), (∀ m ∈ ms, GoodMsg m) → PartialMsg p →
      parseData env (ms.flatten ++ p) = ((ms.map (msgEvents env)).flatten, p) := by
  intro ms
  induction ms with
  | nil =>
    intro p _ hp
    simp only [List.flatten_nil, List.map_nil, List.nil_append]
    rcases hp with rfl | ⟨hne, m, hgood, hlt, hpref⟩
    · rfl
    · rw [parseData_eq, parseOne_prefix_wait env m p hgood hpref hlt]
  | cons m ms ih =>
    intro p hms hp
    have hgood : GoodMsg m := hms m (List.mem_cons_self m ms)
    have hms' : ∀ x ∈ ms, GoodMsg x := fun x hx => hms x (List.mem_cons_of_mem m hx)
    rw [List.flatten_cons, List.append_assoc, parseData_eq,
      parseOne_complete env m (ms.flatten ++ p) hgood]
    dsimp only
    cases ms with
    | nil =>
      simp only [List.flatten_nil, List.nil_append]
      rcases hp with rfl | ⟨hne, m', hgood', hlt, hpref⟩
      · rw [if_pos rfl]
        simp
      · rw [if_neg hne]
        by_cases h4 : 4 ≤ p.length
        · rw [if_pos (by rw [take4_of_pref p m' hpref h4]; exact hgood'.take4)]
          have hw : parseData env p = ([], p) := by
            rw [parseData_eq, parseOne_prefix_wait env m' p hgood' hpref hlt]
          rw [hw]
          simp
        · push_neg at h4
          rw [if_neg (short_ne_magic p (by omega)),
            if_pos ⟨by omega, List.isPrefixOf_iff_prefix.mpr
              (prefix_magic_of_short p m' hpref hgood'.take4 (by omega))⟩]
          simp
    | cons m2 ms' =>
      have hm2 : GoodMsg m2 := hms' m2 (List.mem_cons_self m2 ms')
      have hm2len := hm2.length_ge
      have hrestne : (m2 :: ms').flatten ++ p ≠ [] := by
        intro h
        have := (List.append_eq_nil.mp h).1
        rw [List.flatten_cons] at this
        have := (List.append_eq_nil.mp this).1
        rw [this] at hm2len
        simp at hm2len
      have hmag : ((m2 :: ms').flatten ++ p).take 4 = MAGIC := by
        rw [List.flatten_cons, List.append_assoc,
          List.take_append_of_le_length (by omega)]
        exact hm2.take4
      rw [if_neg hrestne, if_pos hmag, ih p hms' hp]
      simp

theorem PartialOK.toPartialMsg (ms : List (List Nat)) (p : List Nat)
    (hms : ∀ m ∈ ms, GoodMsg m) (h : PartialOK ms p) : PartialMsg p := by
  rcases h with rfl | ⟨hne, m, ms', rfl, hlt, hpref⟩
  · exact Or.inl rfl
  · exact Or.inr ⟨hne, m, hms m (List.mem_cons_self m ms'), hlt, hpref⟩

/-- Correctness of `chop`: chopping a prefix `q` of the stream `ms.flatten` yields the
messages fully covered by `q`, the remaining messages, and the partial tail. -/
theorem chop_spec : ∀ (ms : List (List Nat)) (q R : List Nat),
    (∀ m ∈ ms, GoodMsg m) → ms.flatten = q ++ R →
    ∃ ms1, ms = ms1 ++ (chop ms q).1 ∧
      q = ms1.flatten ++ (chop ms q).2 ∧
      PartialOK (chop ms q).1 (chop ms q).2 ∧
      (chop ms q).1.flatten = (chop ms q).2 ++ R := by
  intro ms
  induction ms with
  | nil =>
    intro q R _ hflat
    refine ⟨[], by simp [chop], by simp [chop], Or.inl ?_, by simp [chop, ← hflat]⟩
    · have : q = [] := by
        have := congrArg List.length hflat
        simp at this
        exact List.length_eq_zero.mp (by omega)
      simp [chop, this]
  | cons m ms ih =>
    intro q R hms hflat
    have hgood : GoodMsg m := hms m (List.mem_cons_self m ms)
    have hms' : ∀ x ∈ ms, GoodMsg x := fun x hx => hms x (List.mem_cons_of_mem m hx)
    by_cases hlt : q.length < m.length
    · refine ⟨[], by simp [chop, hlt], by simp [chop, hlt], ?_, by simp [chop, hlt, ← hflat]⟩
      by_cases hq : q = []
      · refine Or.inl ?_
        simp only [chop]
        rw [if_pos hlt]
        exact hq
      · refine Or.inr ?_
        simp only [chop, if_pos hlt]
        refine ⟨hq, m, ms, rfl, hlt, ?_⟩
        have hq1 : q <+: m ++ ms.flatten := ⟨R, by rw [← hflat, List.flatten_cons]⟩
        rw [List.prefix_iff_eq_take.mp hq1, List.take_append_of_le_length (by omega)]
        exact List.take_prefix _ _
    · push_neg at hlt
      have hq : q = m ++ q.drop m.length := by
        have hpref : m <+: q := by
          have hq1 : q <+: m ++ ms.flatten := ⟨R, by rw [← hflat, List.flatten_cons]⟩
          rcases List.prefix_or_prefix_of_prefix hq1 (List.prefix_append m ms.flatten)
            with h | h
          · have : q = m := h.eq_of_length (Nat.le_antisymm h.length_le hlt)
            rw [this]
          · exact h
        rw [List.prefix_iff_eq_take.mp hpref]
        rw [List.length_take, min_eq_left hlt]
        exact (List.take_append_drop _ q).symm
      have hflat' : ms.flatten = q.drop m.length ++ R := by
        have := hflat
        rw [List.flatten_cons] at this
        conv at this => rw [hq]
        rw [List.append_assoc] at this
        exact List.append_cancel_left this
      obtain ⟨ms1, hsplit, hcover, hpart, hrem⟩ := ih (q.drop m.length) R hms' hflat'
      have hchop : chop (m :: ms) q = chop ms (q.drop m.length) := by
        simp [chop, not_lt.mpr hlt]
      refine ⟨m :: ms1, ?_, ?_, ?_, ?_⟩
      · rw [hchop, List.cons_append, ← hsplit]
      · rw [hchop, List.flatten_cons, List.append_assoc, ← hcover, ← hq]
      · rw [hchop]
        exact hpart
      · rw [hchop]
        exact hrem

/-- Unfold one feeding step, splitting off the events of the first chunk. -/
theorem feedFrom_cons (env : FramerEnv) (p c : List Nat) (cs : List (List Nat)) :
    feedFrom env p (c :: cs) =
      ((handleData env p c).1 ++ (feedFrom env (handleData env p c).2 cs).1,
        (feedFrom env (handleData env p c).2 cs).2) := by
  have haux : ∀ (cs : List (List Nat)) (a : List FEvent) (p : List Nat),
      List.foldl (fun acc c => ((acc.1 ++ (handleData env acc.2 c).1 : List FEvent),
        (handleData env acc.2 c).2)) (a, p) cs =
      (a ++ (feedFrom env p cs).1, (feedFrom env p cs).2) := by
    intro cs
    induction cs with
    | nil =>
      intro a p
      simp [feedFrom]
    | cons c cs ih =>
      intro a p
      simp only [feedFrom, List.foldl_cons, List.nil_append]
      rw [ih, ih ((handleData env p c).1)]
      simp
  simp only [feedFrom, List.foldl_cons, List.nil_append]
  exact haux cs _ _

/-- Feeding chunks of a well-formed stream from a partial-message buffer, under the
`splitOK` condition, emits exactly the per-message events in order and ends with an
empty buffer. -/
theorem feedFrom_msgs (env : FramerEnv) :
    ∀ (chunks ms : List (List Nat)) (p : List Nat),
      (∀ m ∈ ms, GoodMsg m) → PartialOK ms p → p ++ chunks.flatten = ms.flatten →
      splitOK ms p chunks = true →
      feedFrom env p chunks = ((ms.map (msgEvents env)).flatten, []) := by
  intro chunks
  induction chunks with
  | nil =>
    intro ms p hms hpok hjoin _
    simp only [List.flatten_nil, List.append_nil] at hjoin
    rcases hpok with rfl | ⟨hne, m, ms', rfl, hlt, hpref⟩
    · have hmsnil : ms = [] := by
        cases ms with
        | nil => rfl
        | cons a t =>
          exfalso
          have ha : a = [] :=
            (List.flatten_eq_nil_iff.mp hjoin.symm) a (List.mem_cons_self a t)
          have := (hms a (List.mem_cons_self a t)).length_ge
          rw [ha] at this
          simp at this
      rw [hmsnil]
      rfl
    · exfalso
      have := congrArg List.length hjoin
      rw [List.flatten_cons, List.length_append] at this
      omega
  | cons c cs ih =>
    intro ms p hms hpok hjoin hok
    have hok' := hok
    simp only [splitOK, Bool.and_eq_true, decide_eq_true_eq] at hok'
    have hok1 := hok'.1
    have hok2 := hok'.2
    have hjoin' : ms.flatten = (p ++ c) ++ cs.flatten := by
      rw [← hjoin]
      simp [List.flatten_cons, List.append_assoc]
    obtain ⟨ms1, hsplit, hcover, hpart, hrem⟩ := chop_spec ms (p ++ c) cs.flatten hms hjoin'
    have hms1 : ∀ m ∈ ms1, GoodMsg m := fun m hm =>
      hms m (hsplit ▸ List.mem_append_left _ hm)
    have hms2 : ∀ m ∈ (chop ms (p ++ c)).1, GoodMsg m := fun m hm =>
      hms m (hsplit ▸ List.mem_append_right _ hm)
    have hPM : PartialMsg (chop ms (p ++ c)).2 :=
      PartialOK.toPartialMsg _ _ hms2 hpart
    have hstep : handleData env p c =
        ((ms1.map (msgEvents env)).flatten, (chop ms (p ++ c)).2) := by
      by_cases hmagc : c.take 4 = MAGIC
      · have hpnil : p = [] := by
          rcases hok1 with h | h
          · exact h
          · exact absurd hmagc h
        have hc : c = ms1.flatten ++ (chop ms (p ++ c)).2 := by
          rw [← hcover, hpnil, List.nil_append]
        unfold handleData
        rw [if_pos hmagc]
        conv_lhs => rw [hc]
        exact parseData_msgs env ms1 _ hms1 hPM
      · by_cases hpnil : p = []
        · subst hpnil
          simp only [List.nil_append] at hcover hjoin' ⊢
          have hclt : c.length < 4 := by
            cases hmsc : ms with
            | nil =>
              rw [hmsc] at hjoin'
              have : c = [] := (List.append_eq_nil.mp hjoin'.symm).1
              rw [this]
              simp
            | cons m1 t =>
              by_contra hge
              push_neg at hge
              have hm1 : GoodMsg m1 := by
                rw [hmsc] at hms
                exact hms m1 (List.mem_cons_self m1 t)
              have hcp : c <+: ms.flatten := ⟨cs.flatten, hjoin'.symm⟩
              have : c.take 4 = ms.flatten.take 4 := take4_of_pref c _ hcp hge
              rw [hmsc, List.flatten_cons,
                List.take_append_of_le_length (by have := hm1.length_ge; omega)] at this
              exact hmagc (this.trans hm1.take4)
          have hcpre : c <+: MAGIC := by
            cases hmsc : ms with
            | nil =>
              rw [hmsc] at hjoin'
              have : c = [] := (List.append_eq_nil.mp hjoin'.symm).1
              rw [this]
              exact List.nil_prefix
            | cons m1 t =>
              have hm1 : GoodMsg m1 := by
                rw [hmsc] at hms
                exact hms m1 (List.mem_cons_self m1 t)
              have hcp : c <+: ms.flatten := ⟨cs.flatten, hjoin'.symm⟩
              have hcm1 : c <+: m1 := by
                have h1 : c = ms.flatten.take c.length := List.prefix_iff_eq_take.mp hcp
                rw [hmsc, List.flatten_cons,
                  List.take_append_of_le_length (by have := hm1.length_ge; omega)] at h1
                rw [h1]
                exact List.take_prefix _ _
              exact prefix_magic_of_short c m1 hcm1 hm1.take4 (by omega)
          have hms1nil : ms1 = [] := by
            cases hms1c : ms1 with
            | nil => rfl
            | cons m0 t =>
              exfalso
              have hm0 : GoodMsg m0 := by
                rw [hms1c] at hms1
                exact hms1 m0 (List.mem_cons_self m0 t)
              have := congrArg List.length hcover
              rw [hms1c, List.flatten_cons] at this
              simp only [List.length_append] at this
              have := hm0.length_ge
              omega
          have hp' : (chop ms c).2 = c := by
            rw [hms1nil] at hcover
            simp at hcover
            exact hcover.symm
          unfold handleData
          rw [if_neg hmagc, if_neg (by simp), if_pos ⟨hclt, List.isPrefixOf_iff_prefix.mpr hcpre⟩,
            hms1nil, hp']
          simp
        · unfold handleData
          rw [if_neg hmagc, if_pos hpnil]
          conv_lhs => rw [show p ++ c = ms1.flatten ++ (chop ms (p ++ c)).2 from hcover]
          exact parseData_msgs env ms1 _ hms1 hPM
    rw [feedFrom_cons, hstep]
    rw [ih (chop ms (p ++ c)).1 (chop ms (p ++ c)).2 hms2 hpart hrem.symm hok2]
    conv_rhs => rw [hsplit]
    simp

/-- `parseData` on exactly one complete well-formed message. -/
theorem parseData_single (env : FramerEnv) (m : List Nat) (hm : GoodMsg m) :
    parseData env m = (msgEvents env m, []) := by
  have h := parseOne_complete env m [] hm
  rw [List.append_nil] at h
  rw [parseData_eq, h]
  simp

/-- A 20-byte-header message with a body that itself begins with the magic constant:
well-formed, but `handleData` mis-handles it when the split boundary falls between
header and body. -/
def msgA : List Nat :=
  MAGIC ++ [1, 0, 0, 0] ++ [4, 0, 0, 0] ++ [0, 0, 0, 0] ++ [0, 0] ++ [0x14, 0x66] ++ MAGIC

/-- A fresh environment: no pending futures, push callback registered. -/
def envA : FramerEnv := ⟨[], true⟩

/-- C1 (counterexample): split-invariance fails as stated.  `msgA` is a single
well-formed message, yet feeding it whole emits its push event while feeding it split
at the header/body boundary emits nothing — the body begins with the magic constant,
so `handleData` discards the buffered header and replaces the buffer. -/
theorem framing_split_counterexample :
    GoodMsg msgA ∧ msgA.take 20 ++ MAGIC = msgA ∧
    feedAll envA [msgA] ≠ feedAll envA [msgA.take 20, MAGIC] := by
  refine ⟨by decide, by decide, by decide⟩

/-- C1 (amended): feeding a well-formed multi-message byte stream split at arbitrary
boundaries produces the same events (same command id, chunk, header length, and the
same resolution/push routing) and final buffer as feeding it whole, provided no chunk
that starts strictly inside a message begins with the 4-byte magic constant (the
`splitOK` condition); chunks of fewer than 4 bytes — in particular one-byte-at-a-time
feeding — never violate it. -/
theorem framing_split_invariance (env : FramerEnv) (ms chunks : List (List Nat))
    (hms : ∀ m ∈ ms, GoodMsg m) (hjoin : chunks.flatten = ms.flatten)
    (hok : splitOK ms [] chunks = true) :
    feedAll env chunks = feedAll env [ms.flatten] := by
  have h1 : feedAll env chunks = ((ms.map (msgEvents env)).flatten, []) :=
    feedFrom_msgs env chunks ms [] hms (Or.inl rfl) (by simpa using hjoin) hok
  have h2 : feedAll env [ms.flatten] = ((ms.map (msgEvents env)).flatten, []) := by
    refine feedFrom_msgs env [ms.flatten] ms [] hms (Or.inl rfl) (by simp) ?_
    simp [splitOK]
  rw [h1, h2]

theorem framing_split_invariance_witness :
    (∀ m ∈ [msgA], GoodMsg m) ∧
    (msgA.map (fun b => [b])).flatten = ([msgA] : List (List Nat)).flatten ∧
    splitOK [msgA] [] (msgA.map (fun b => [b])) = true ∧
    feedAll envA (msgA.map (fun b => [b])) =
      feedAll envA [([msgA] : List (List Nat)).flatten] :=
  ⟨by decide, by decide, by decide,
    framing_split_invariance envA [msgA] (msgA.map (fun b => [b]))
      (by decide) (by decide) (by decide)⟩

/-- C2: for a well-formed extended-header (24-byte) message whose `(cmdId, messId)`
key has a pending future, `parseData` checks the status code before any delivery:
status 200 or 300 resolves the future with the chunk; 401 rejects it through the
dedicated unauthorized branch of the `ApiError` (modelled by the `auth` flag, with
`rspCode` 401); any other status rejects it with the generic `ApiError` branch; in
the rejecting cases no `resolved` or `pushed` event is emitted. -/
theorem status_code_dispatch (env : FramerEnv) (m : List Nat) (hm : GoodMsg m)
    (hext : headerLenOf m = 24)
    (hf : (readU32 m 4, readU32 m 12) ∈ env.futures) :
    (readU16 m 16 = 200 ∨ readU16 m 16 = 300 →
      parseData env m = ([.resolved (readU32 m 4) (readU32 m 12) m 24], [])) ∧
    (readU16 m 16 = 401 →
      parseData env m = ([.rejectedStatus (readU32 m 4) (readU32 m 12) 401 true], [])) ∧
    (readU16 m 16 ≠ 200 → readU16 m 16 ≠ 300 → readU16 m 16 ≠ 401 →
      parseData env m =
        ([.rejectedStatus (readU32 m 4) (readU32 m 12) (readU16 m 16) false], [])) := by
  have hsingle := parseData_single env m hm
  unfold msgEvents at hsingle
  rw [hext] at hsingle
  refine ⟨?_, ?_, ?_⟩
  · intro hs
    rw [hsingle]
    simp only [bodyEvents]
    rw [if_neg (by rcases hs with h | h <;> simp [h]), if_pos hf]
  · intro hs
    rw [hsingle]
    simp only [bodyEvents]
    rw [if_pos ⟨by trivial, by omega, by omega⟩, if_pos hf, hs]
    simp
  · intro h200 h300 h401
    rw [hsingle]
    simp only [bodyEvents]
    rw [if_pos ⟨by trivial, h200, h300⟩, if_pos hf]
    simp [h401]

/-- A well-formed 24-byte-header message, cmd_id 3, mess_id 7, status 401, 1-byte
body. -/
def msg401 : List Nat :=
  MAGIC ++ [3, 0, 0, 0] ++ [1, 0, 0, 0] ++ [7, 0, 0, 0] ++ [0x91, 0x01] ++ [0x14, 0x64] ++
    [0, 0, 0, 0] ++ [0xaa]

/-- A table holding only the future for `(3, 7)`, with a push callback. -/
def env37 : FramerEnv := ⟨[(3, 7)], true⟩

theorem status_code_dispatch_witness :
    GoodMsg msg401 ∧ headerLenOf msg401 = 24 ∧ readU16 msg401 16 = 401 ∧
    parseData env37 msg401 = ([.rejectedStatus 3 7 401 true], []) :=
  ⟨by decide, by decide, by decide,
    (status_code_dispatch env37 msg401 (by decide) (by decide) (by decide)).2.1 (by decide)⟩

/-- C9 (counterexample): with the non-empty buffer `[0xf0]` (a buffered strict prefix
of the magic constant) and a chunk that begins with the magic constant, `handleData`
does not append — it discards the buffer and replaces it with the chunk. -/
theorem buffer_replace_counterexample :
    ([0xf0] : List Nat) ≠ [] ∧ MAGIC.take 4 = MAGIC ∧
    (handleData envA [0xf0] MAGIC).2 = MAGIC ∧
    (handleData envA [0xf0] MAGIC).2 ≠ [0xf0] ++ MAGIC := by
  refine ⟨by decide, by decide, by decide, by decide⟩

/-- C9 (amended): `handleData`'s buffering rule — a chunk beginning with the 4-byte
magic constant always replaces the buffer (even a non-empty one) and is parsed alone;
a chunk not beginning with it is appended when the buffer is non-empty and the
combined buffer is parsed; with an empty buffer, a strict prefix of the constant
shorter than 4 bytes is kept without parsing and without error; any other chunk is an
`UnexpectedDataError` that clears the buffer and rejects all pending futures. -/
theorem handleData_buffering (env : FramerEnv) (st c : List Nat) :
    (c.take 4 = MAGIC → handleData env st c = parseData env c) ∧
    (c.take 4 ≠ MAGIC → st ≠ [] → handleData env st c = parseData env (st ++ c)) ∧
    (c.take 4 ≠ MAGIC → st = [] → c.length < 4 → c.isPrefixOf MAGIC = true →
      handleData env st c = ([], c)) ∧
    (c.take 4 ≠ MAGIC → st = [] → ¬(c.length < 4 ∧ c.isPrefixOf MAGIC = true) →
      handleData env st c =
        ([.errored (.invalidMagic (c.take 4)) (setErrorKeys env.futures none none)], [])) := by
  refine ⟨?_, ?_, ?_, ?_⟩
  · intro h
    unfold handleData
    rw [if_pos h]
  · intro h hst
    unfold handleData
    rw [if_neg h, if_pos hst]
  · intro h hst hlen hpre
    unfold handleData
    rw [if_neg h, if_neg (by simp [hst]), if_pos ⟨hlen, hpre⟩]
  · intro h hst hno
    unfold handleData
    rw [if_neg h, if_neg (by simp [hst]), if_neg hno]

theorem handleData_buffering_witness :
    handleData envA [] MAGIC = parseData envA MAGIC ∧
    handleData envA [0x01] [0x02] = parseData envA ([0x01] ++ [0x02]) ∧
    handleData envA [] [0xf0] = ([], [0xf0]) ∧
    handleData env37 [] [9, 9, 9, 9] =
      ([.errored (.invalidMagic ([9, 9, 9, 9].take 4)) (setErrorKeys env37.futures none none)],
        []) :=
  ⟨(handleData_buffering envA [] MAGIC).1 (by decide),
    (handleData_buffering envA [0x01] [0x02]).2.1 (by decide) (by decide),
    (handleData_buffering envA [] [0xf0]).2.2.1 (by decide) rfl (by decide) (by decide),
    (handleData_buffering env37 [] [9, 9, 9, 9]).2.2.2 (by decide) rfl (by decide)⟩

/-! ## Pending-request table lifecycle (src/baichuan/tcp-protocol.ts)

`receiveFutures` together with the receive buffer.  Message parsing
(`handleData`/`parseData`) reads the table but never writes it; the only deletion in
the source is in the `setTimeout` callback of `waitForResponse` (which also removes
the emptied inner map).  `Map` deletion is modelled as `filter` — a `Map` holds at
most one entry per key. -/

/-- Connection state carried across socket `data` events: the receive buffer and the
pending keys. -/
structure ProtoState where
  data : List Nat
  futures : List BKey
  deriving DecidableEq, Repr

/-- One socket `data` event: `handleData` parses against the current table; the
table itself is untouched (the source's `parseData` never deletes a future). -/
def handleDataS (hasPush : Bool) (s : ProtoState) (chunk : List Nat) :
    List FEvent × ProtoState :=
  let r := handleData ⟨s.futures, hasPush⟩ s.data chunk
  (r.1, ⟨r.2, s.futures⟩)

/-- The timeout callback registered by `waitForResponse(cmdId, messId, timeout)`:
deletes the key from the table (and the emptied inner map) and rejects the promise
with `ReolinkTimeoutError`. -/
def timeoutFire (s : ProtoState) (k : BKey) : List FEvent × ProtoState :=
  ([.timeoutRejected k.1 k.2], ⟨s.data, s.futures.filter (fun e => e ≠ k)⟩)

/-- C3 (counterexample): resolving a pending request does not remove it from the
table.  With `(1, 0)` pending and an empty buffer, the matching message `msgA`
resolves the future, yet `(1, 0)` is still in the table afterwards (the source's
`parseData` contains no deletion; only the timeout callback deletes). -/
theorem pending_not_removed_on_resolution :
    (handleDataS true ⟨[], [(1, 0)]⟩ msgA).1 = [.resolved 1 0 msgA 20] ∧
    (1, 0) ∈ (handleDataS true ⟨[], [(1, 0)]⟩ msgA).2.futures := by
  refine ⟨by decide, by decide⟩

/-- C3 (amended): a pending key is removed only by its timeout: the timeout callback
rejects with `ReolinkTimeoutError` and deletes the key, and a message for that key
arriving after the timeout finds no future and is routed to the push callback rather
than delivered as a resolution; resolution and rejection by an inbound message leave
the entry in the table (see the counterexample). -/
theorem timeout_cleanup (s : ProtoState) (k : BKey) (m : List Nat)
    (hdata : s.data = []) (hm : GoodMsg m)
    (hcmd : readU32 m 4 = k.1) (hmess : readU32 m 12 = k.2)
    (hok : headerLenOf m = 20 ∨ readU16 m 16 = 200 ∨ readU16 m 16 = 300) :
    (timeoutFire s k).1 = [.timeoutRejected k.1 k.2] ∧
    k ∉ (timeoutFire s k).2.futures ∧
    (handleDataS true (timeoutFire s k).2 m).1 = [.pushed k.1 m (headerLenOf m)] := by
  refine ⟨rfl, ?_, ?_⟩
  · simp [timeoutFire, List.mem_filter]
  · have henv : (⟨(timeoutFire s k).2.futures, true⟩ : FramerEnv) =
        ⟨s.futures.filter (fun e => e ≠ k), true⟩ := rfl
    have hnf : (readU32 m 4, readU32 m 12) ∉ s.futures.filter (fun e => e ≠ k) := by
      intro hmem
      have := (List.mem_filter.mp hmem).2
      rw [hcmd, hmess] at this
      simp at this
    have hmagic : m.take 4 = MAGIC := hm.take4
    simp only [handleDataS, timeoutFire, hdata]
    unfold handleData
    rw [if_pos hmagic, parseData_single _ m hm]
    unfold msgEvents bodyEvents
    rw [if_neg ?hstat, if_neg ?hmem, if_pos rfl]
    case hmem =>
      simpa using hnf
    case hstat =>
      rcases hok with h | h | h
      · intro hc
        rw [hc.1] at h
        omega
      · exact fun hc => hc.2.1 h
      · exact fun hc => hc.2.2 h
    simp [hcmd]

theorem timeout_cleanup_witness :
    (⟨[], [(1, 0)]⟩ : ProtoState).data = [] ∧ GoodMsg msgA ∧
    readU32 msgA 4 = 1 ∧ readU32 msgA 12 = 0 ∧ headerLenOf msgA = 20 ∧
    ((timeoutFire ⟨[], [(1, 0)]⟩ (1, 0)).1 = [.timeoutRejected 1 0] ∧
      (1, 0) ∉ (timeoutFire ⟨[], [(1, 0)]⟩ (1, 0)).2.futures ∧
      (handleDataS true (timeoutFire ⟨[], [(1, 0)]⟩ (1, 0)).2 msgA).1 =
        [.pushed 1 msgA (headerLenOf msgA)]) :=
  ⟨rfl, by decide, by decide, by decide, by decide,
    timeout_cleanup ⟨[], [(1, 0)]⟩ (1, 0) msgA rfl (by decide) (by decide) (by decide)
      (Or.inl (by decide))⟩

/-! ## waitForResponse join semantics (src/baichuan/tcp-protocol.ts lines 317–337)

The nested `Map` lookup/insert of `waitForResponse`, with promises identified by
allocation order.  An existing entry's promise is returned as-is; otherwise a new
promise is created, stored, and returned. -/

/-- The pending table with promise identities: entries `(key, promiseId)` plus the
next fresh promise id. -/
structure RFTable where
  entries : List (BKey × Nat)
  nextId : Nat
  deriving DecidableEq, Repr

/-- `waitForResponse(cmdId, messId)` (the registration part): return the existing
entry's promise if the key is present, otherwise create and store a fresh promise. -/
def waitForResponse (t : RFTable) (cmdId messId : Nat) : RFTable × Nat :=
  match t.entries.find? (fun e => e.1 = (cmdId, messId)) with
  | some e => (t, e.2)
  | none => (⟨t.entries ++ [((cmdId, messId), t.nextId)], t.nextId + 1⟩, t.nextId)

/-- Number of entries for a key. -/
def countKey (t : RFTable) (k : BKey) : Nat :=
  (t.entries.filter (fun e => e.1 = k)).length

/-- C8: at most one pending entry per `(cmdId, messId)` key: registering a key makes
its count exactly one, and a second registration for the same key changes nothing and
returns the same promise — so one resolution of that promise reaches both callers. -/
theorem waitForResponse_join (t : RFTable) (c i : Nat)
    (hinv : countKey t (c, i) ≤ 1) :
    countKey (waitForResponse t c i).1 (c, i) = 1 ∧
    (waitForResponse (waitForResponse t c i).1 c i).1 = (waitForResponse t c i).1 ∧
    (waitForResponse (waitForResponse t c i).1 c i).2 = (waitForResponse t c i).2 := by
  match hfind : t.entries.find? (fun e => e.1 = (c, i)) with
  | some e =>
    have hmem : e ∈ t.entries := List.mem_of_find?_eq_some hfind
    have hkey : e.1 = (c, i) := by
      have := List.find?_some hfind
      simpa using this
    have hcount : 1 ≤ countKey t (c, i) := by
      have : e ∈ t.entries.filter (fun e => e.1 = (c, i)) :=
        List.mem_filter.mpr ⟨hmem, by simp [hkey]⟩
      have := List.length_pos.mpr (List.ne_nil_of_mem this)
      unfold countKey
      omega
    unfold waitForResponse
    rw [hfind]
    dsimp only
    exact ⟨by omega, by rw [hfind], by rw [hfind]⟩
  | none =>
    have hcount : countKey t (c, i) = 0 := by
      unfold countKey
      rw [List.filter_eq_nil_iff.mpr ?_]
      · rfl
      · intro e he
        have := List.find?_eq_none.mp hfind e he
        simpa using this
    have hfind2 : (t.entries ++ [((c, i), t.nextId)]).find? (fun e => e.1 = (c, i)) =
        some ((c, i), t.nextId) := by
      rw [List.find?_append, hfind]
      simp
    unfold waitForResponse
    rw [hfind, hfind2]
    refine ⟨?_, rfl, rfl⟩
    unfold countKey
    simp only [List.filter_append]
    rw [List.length_append]
    have : countKey t (c, i) = 0 := hcount
    unfold countKey at this
    rw [this]
    simp

theorem waitForResponse_join_witness :
    countKey ⟨[], 0⟩ (5, 250) ≤ 1 ∧
    (countKey (waitForResponse ⟨[], 0⟩ 5 250).1 (5, 250) = 1 ∧
      (waitForResponse (waitForResponse ⟨[], 0⟩ 5 250).1 5 250).1 =
        (waitForResponse ⟨[], 0⟩ 5 250).1 ∧
      (waitForResponse (waitForResponse ⟨[], 0⟩ 5 250).1 5 250).2 =
        (waitForResponse ⟨[], 0⟩ 5 250).2) :=
  ⟨by decide, waitForResponse_join ⟨[], 0⟩ 5 250 (by decide)⟩

/-! ## Connection loss (src/baichuan/tcp-protocol.ts)

`connect` wires both the socket `error` event and the socket `close` event to
`handleConnectionLost`; every invocation rejects all pending futures (with the socket
error when one was passed, otherwise with a fresh `ReolinkConnectionError`) and then
unconditionally calls the close callback — there is no already-closed guard. -/

/-- `handleConnectionLost(exc?)`: reject every pending future, then invoke the close
callback.  `isErr` is true for the socket-`error` wiring (rejects with the socket
error) and false for the socket-`close` wiring (rejects with
`ReolinkConnectionError`). -/
def handleConnectionLost (futures : List BKey) (isErr : Bool) : List FEvent :=
  (futures.map (fun k => FEvent.connRejected k.1 k.2 isErr)) ++ [.closeCb]

/-- A socket lifecycle event that `connect` routes to `handleConnectionLost`. -/
inductive LossEvent where
  | sockErr
  | sockClose
  deriving DecidableEq, Repr

/-- Whether the wiring passes the socket error. -/
def isErrEvent : LossEvent → Bool
  | .sockErr => true
  | .sockClose => false

/-- The events produced by a sequence of socket `error`/`close` events, per the
listener wiring of `connect` (the table is not cleared by `handleConnectionLost`, so
every invocation sees the same pending keys). -/
def connectionEvents (futures : List BKey) (evts : List LossEvent) : List FEvent :=
  (evts.map (fun e => handleConnectionLost futures (isErrEvent e))).flatten

/-- Occurrences of the close callback. -/
def countCloseCb (evs : List FEvent) : Nat :=
  (evs.filter (fun e => e = .closeCb)).length

theorem countCloseCb_append (a b : List FEvent) :
    countCloseCb (a ++ b) = countCloseCb a + countCloseCb b := by
  unfold countCloseCb
  rw [List.filter_append, List.length_append]

theorem countCloseCb_handleConnectionLost (fs : List BKey) (isErr : Bool) :
    countCloseCb (handleConnectionLost fs isErr) = 1 := by
  unfold handleConnectionLost
  rw [countCloseCb_append]
  have h1 : countCloseCb (fs.map (fun k => FEvent.connRejected k.1 k.2 isErr)) = 0 := by
    unfold countCloseCb
    rw [List.filter_eq_nil_iff.mpr ?_]
    · rfl
    · intro e he
      obtain ⟨k, _, rfl⟩ := List.mem_map.mp he
      simp
  rw [h1]
  rfl

/-- C4 (counterexample): with two pending requests, a socket error followed by the
socket close (Node always emits `close` after `error`) invokes the close callback
once per event — twice, not exactly once. -/
theorem close_callback_counterexample :
    countCloseCb (connectionEvents [(1, 0), (2, 0)] [.sockErr, .sockClose]) ≠ 1 ∧
    countCloseCb (connectionEvents [(1, 0), (2, 0)] [.sockErr, .sockClose]) = 2 := by
  refine ⟨by decide, by decide⟩

/-- C4 (amended): each connection-loss event rejects all `N` pending requests (with
the socket error for an `error` event, a `ReolinkConnectionError` for a bare `close`)
and invokes the close callback exactly once per event — once, not `N` times, for a
single event, but once per socket event over a sequence, so an `error` followed by a
`close` invokes it twice. -/
theorem connection_loss_fanout (fs : List BKey) (es : List LossEvent) :
    countCloseCb (connectionEvents fs es) = es.length ∧
    (∀ e ∈ es, ∀ k ∈ fs,
      FEvent.connRejected k.1 k.2 (isErrEvent e) ∈ connectionEvents fs es) := by
  constructor
  · induction es with
    | nil => rfl
    | cons e es ih =>
      have hcons : connectionEvents fs (e :: es) =
          handleConnectionLost fs (isErrEvent e) ++ connectionEvents fs es := by
        unfold connectionEvents
        rw [List.map_cons, List.flatten_cons]
      rw [hcons, countCloseCb_append, countCloseCb_handleConnectionLost, ih]
      simp [Nat.add_comm]
  · intro e he k hk
    unfold connectionEvents
    rw [List.mem_flatten]
    refine ⟨handleConnectionLost fs (isErrEvent e), List.mem_map.mpr ⟨e, he, rfl⟩, ?_⟩
    unfold handleConnectionLost
    exact List.mem_append_left _ (List.mem_map.mpr ⟨k, hk, rfl⟩)

theorem connection_loss_fanout_witness :
    countCloseCb (connectionEvents [(1, 0), (2, 9)] [.sockErr, .sockClose]) = 2 ∧
    FEvent.connRejected 2 9 true ∈ connectionEvents [(1, 0), (2, 9)] [.sockErr, .sockClose] :=
  ⟨(connection_loss_fanout [(1, 0), (2, 9)] [.sockErr, .sockClose]).1,
    (connection_loss_fanout [(1, 0), (2, 9)] [.sockErr, .sockClose]).2
      .sockErr (by decide) (2, 9) (by decide)⟩

end Reolink
